import Mathlib

/-!
# Verification of the clockwork circular-statistics library

Shallow embedding of `src/source/clockwork.py` and
`src/source/clockwork/angle_calc.py` over exact real arithmetic.

Modelling conventions:
* numpy floats are embedded as `ℝ` (exact real arithmetic); `np.angle z`
  is `Complex.arg z` (both are the `atan2`-based argument with range
  `(-π, π]`); `np.exp` on a purely imaginary input is `Complex.exp`.
* numpy's floor-style `%` on reals is `rfmod` below.
* 1-D arrays are `List ℝ`; a shape is determined by the list's length.
* `np.log 0 = -inf` and `np.sqrt` of `+inf` is `+inf` (IEEE semantics,
  no exception); the one place this matters (`circular_std`) is embedded
  with codomain `EReal`, where the zero-magnitude branch yields `⊤`.
* `skipnan` selects `np.nanmean` over `np.mean`; on finite (NaN-free)
  inputs the two coincide, and the claims under verification quantify
  over finite angles only, so the flag is not represented.  `axis=None`
  (full reduction) is the embedded reduction.
-/

open Real Classical

namespace Clockwork

/-- `np.deg2rad`: multiply by `π / 180`. -/
noncomputable def deg2rad (x : ℝ) : ℝ := x * (π / 180)

/-- `np.rad2deg`: multiply by `180 / π`. -/
noncomputable def rad2deg (x : ℝ) : ℝ := x * (180 / π)

/-- The effective full arc: `full_arc` when given, else `360` in degree
mode, else `2π` (`clockwork.py`, `circular_sub` lines 339-340, and the
implicit circle length used by the radian/degree conversions). -/
noncomputable def effFullArc (degrees : Bool) (full_arc : Option ℝ) : ℝ :=
  match full_arc with
  | some fa => fa
  | none => if degrees then 360 else 2 * π

/-- The `to_rad` closure (`clockwork.py` lines 23-25, 264, 266-267):
`np.deg2rad` if `degrees` else identity, overridden by
`arc * 2 * np.pi / full_arc` when `full_arc` is given. -/
noncomputable def toRadFn (degrees : Bool) (full_arc : Option ℝ) : ℝ → ℝ :=
  match full_arc with
  | some fa => fun arc => arc * 2 * π / fa
  | none => if degrees then deg2rad else fun x => x

/-- The documented `to_deg` closure (`clockwork.py` lines 82-84):
`np.rad2deg` if `degrees` else identity, overridden by
`full_arc * rad / (2 * np.pi)` when `full_arc` is given. -/
noncomputable def toDegFn (degrees : Bool) (full_arc : Option ℝ) : ℝ → ℝ :=
  match full_arc with
  | some fa => fun rad => fa * rad / (2 * π)
  | none => if degrees then rad2deg else fun x => x

/-- The `to_deg` closure local to `circular_sieve` (`clockwork.py`
lines 265, 268): its `full_arc` branch is `arc * full_arc / 2 * np.pi`
(left-associated, i.e. scaled by `full_arc·π/2` rather than the
documented `full_arc/(2π)`). -/
noncomputable def sieveToDegFn (degrees : Bool) (full_arc : Option ℝ) : ℝ → ℝ :=
  match full_arc with
  | some fa => fun arc => arc * fa / 2 * π
  | none => if degrees then rad2deg else fun x => x

/-- Modelled from the spec (§4.1): the free function
`clockwork.utils.principal_angle` is part of this repository but its
defining module is not under `src/` (only its callers and tests are).
Per the spec it converts to radians, forms `exp(i·θ)`, takes the
argument, and converts back; this coincides with the in-src reduction
lambda of `circular_sieve` (`clockwork.py` line 271) combined with the
documented back-conversion used by `circular_mean` (line 84). -/
noncomputable def principal_angle (angle : ℝ) (degrees : Bool) (full_arc : Option ℝ) : ℝ :=
  toDegFn degrees full_arc (Complex.arg (Complex.exp ((toRadFn degrees full_arc angle : ℝ) * Complex.I)))

/-- `AngleCalc.boundTo180` (`angle_calc.py` lines 13-34):
`principal_angle(angle, degrees=True)`. -/
noncomputable def boundTo180 (angle : ℝ) : ℝ := principal_angle angle true none

theorem toRadFn_eq (degrees : Bool) (full_arc : Option ℝ) (x : ℝ) :
    toRadFn degrees full_arc x = x * (2 * π / effFullArc degrees full_arc) := by
  match full_arc with
  | some fa => simp only [toRadFn, effFullArc]; ring
  | none =>
      cases degrees <;> simp only [toRadFn, effFullArc, deg2rad, if_true, if_false, Bool.false_eq_true]
      · have hπ : (π : ℝ) ≠ 0 := Real.pi_ne_zero
        field_simp
      · ring

theorem toDegFn_eq (degrees : Bool) (full_arc : Option ℝ) (r : ℝ) :
    toDegFn degrees full_arc r = r * (effFullArc degrees full_arc / (2 * π)) := by
  match full_arc with
  | some fa => simp only [toDegFn, effFullArc]; ring
  | none =>
      cases degrees <;> simp only [toDegFn, effFullArc, rad2deg, if_true, if_false, Bool.false_eq_true]
      · have hπ : (π : ℝ) ≠ 0 := Real.pi_ne_zero
        field_simp
      · have hπ : (π : ℝ) ≠ 0 := Real.pi_ne_zero
        field_simp
        ring

theorem principal_angle_eq_toIocMod (angle : ℝ) (degrees : Bool) (full_arc : Option ℝ) :
    principal_angle angle degrees full_arc
      = (effFullArc degrees full_arc / (2 * π))
          * toIocMod (mul_pos two_pos Real.pi_pos) (-π) (toRadFn degrees full_arc angle) := by
  unfold principal_angle
  rw [Complex.arg_exp_mul_I, toDegFn_eq]
  ring

/-- Core property of the principal-angle reduction under exact real
arithmetic: the result lies in `(-half_arc, half_arc]` and differs from
the input by an integer number of full arcs. -/
theorem principal_angle_spec (angle : ℝ) (degrees : Bool) (full_arc : Option ℝ)
    (h : 0 < effFullArc degrees full_arc) :
    principal_angle angle degrees full_arc
        ∈ Set.Ioc (-(effFullArc degrees full_arc / 2)) (effFullArc degrees full_arc / 2)
      ∧ ∃ k : ℤ, principal_angle angle degrees full_arc = angle - k * effFullArc degrees full_arc := by
  set F := effFullArc degrees full_arc with hF
  have hπ : (0:ℝ) < π := Real.pi_pos
  have hc : (0:ℝ) < F / (2 * π) := by positivity
  set t := toIocMod (mul_pos two_pos Real.pi_pos) (-π) (toRadFn degrees full_arc angle) with ht
  have hmem : t ∈ Set.Ioc (-π) (-π + 2 * π) := toIocMod_mem_Ioc _ _ _
  have hmem1 : -π < t := hmem.1
  have hmem2 : t ≤ π := by have := hmem.2; linarith
  have hpa : principal_angle angle degrees full_arc = F / (2 * π) * t := by
    rw [principal_angle_eq_toIocMod]
  constructor
  · rw [hpa]
    constructor
    · have : F / (2 * π) * (-π) < F / (2 * π) * t := by
        exact mul_lt_mul_of_pos_left hmem1 hc
      have heq : F / (2 * π) * (-π) = -(F / 2) := by
        field_simp
        ring
      linarith [heq ▸ this]
    · have : F / (2 * π) * t ≤ F / (2 * π) * π := by
        exact mul_le_mul_of_nonneg_left hmem2 (le_of_lt hc)
      have heq : F / (2 * π) * π = F / 2 := by
        field_simp
        ring
      linarith [heq ▸ this]
  · refine ⟨toIocDiv (mul_pos two_pos Real.pi_pos) (-π) (toRadFn degrees full_arc angle), ?_⟩
    have hsub : toRadFn degrees full_arc angle - t
        = toIocDiv (mul_pos two_pos Real.pi_pos) (-π) (toRadFn degrees full_arc angle) • (2 * π) :=
      self_sub_toIocMod _ _ _
    have hrad : toRadFn degrees full_arc angle = angle * (2 * π / F) := toRadFn_eq _ _ _
    have hFne : F ≠ 0 := ne_of_gt h
    have hπne : (π:ℝ) ≠ 0 := ne_of_gt hπ
    rw [hpa]
    rw [zsmul_eq_mul] at hsub
    have htval : t = angle * (2 * π / F)
        - (toIocDiv (mul_pos two_pos Real.pi_pos) (-π) (toRadFn degrees full_arc angle) : ℝ) * (2 * π) := by
      rw [← hrad]; linarith
    rw [htval]
    field_simp
    ring

/-- Concrete evaluation helper: the degree-mode principal angle of `x` is
`c` whenever `c` is in the argument range and congruent to `x` mod 360. -/
theorem principal_angle_deg_eq (x c : ℝ) (k : ℤ) (h1 : -180 < c) (h2 : c ≤ 180)
    (hk : x = c + (k : ℝ) * 360) : principal_angle x true none = c := by
  have hπ : (0:ℝ) < π := Real.pi_pos
  rw [principal_angle_eq_toIocMod]
  have hrad : toRadFn true none x = x * (π / 180) := rfl
  have hmod : toIocMod (mul_pos two_pos Real.pi_pos) (-π) (toRadFn true none x)
      = c * (π / 180) := by
    rw [toIocMod_eq_iff]
    refine ⟨Set.mem_Ioc.mpr ⟨by nlinarith, by nlinarith⟩, ⟨k, ?_⟩⟩
    rw [hrad, hk, zsmul_eq_mul]
    ring
  rw [hmod]
  have hF : effFullArc true none = 360 := rfl
  rw [hF]
  have hπne : (π:ℝ) ≠ 0 := ne_of_gt hπ
  field_simp
  ring

/-- C1 counterexample: under exact real arithmetic an input of exactly
`+half_arc` (180° in degree mode) is returned unchanged as `+180`, not
mapped to `-180`: the argument convention of `np.angle` is `(-π, π]`. -/
theorem principal_angle_at_pos_half_arc :
    principal_angle 180 true none = 180 ∧ (180:ℝ) ≠ -180 := by
  constructor
  · exact principal_angle_deg_eq 180 180 0 (by norm_num) (by norm_num) (by norm_num)
  · norm_num

/-- C1 (amended): for every finite real input and every positive effective
full arc, the principal-angle operation (`principal_angle`; `boundTo180`
for the degrees-only wrapper) returns the representative of the input's
equivalence class modulo `full_arc` lying in the half-open interval
`(-half_arc, half_arc]` where `half_arc = full_arc/2`; in particular an
input of exactly `+half_arc` (e.g. 180°) maps to `+half_arc` itself (the
interval is half-open on the negative side), inputs of arbitrary magnitude
(many full turns either direction) are handled, and no error is raised
(the embedding is a total function). -/
theorem principal_angle_class_repr (angle : ℝ) (degrees : Bool) (full_arc : Option ℝ)
    (h : 0 < effFullArc degrees full_arc) :
    (principal_angle angle degrees full_arc
        ∈ Set.Ioc (-(effFullArc degrees full_arc / 2)) (effFullArc degrees full_arc / 2)
      ∧ ∃ k : ℤ, principal_angle angle degrees full_arc = angle - k * effFullArc degrees full_arc)
      ∧ boundTo180 angle = principal_angle angle true none :=
  ⟨principal_angle_spec angle degrees full_arc h, rfl⟩

theorem principal_angle_class_repr_witness :
    (0:ℝ) < effFullArc true none
      ∧ ((principal_angle 270 true none
            ∈ Set.Ioc (-(effFullArc true none / 2)) (effFullArc true none / 2)
          ∧ ∃ k : ℤ, principal_angle 270 true none = 270 - k * effFullArc true none)
          ∧ boundTo180 270 = principal_angle 270 true none) :=
  ⟨by norm_num [effFullArc], principal_angle_class_repr 270 true none (by norm_num [effFullArc])⟩

/-- `_complex_circular_mean` (`clockwork.py` lines 18-26): the mean of
`exp(i·to_rad(θ))` over the input angles (`axis=None` full reduction;
`np.mean l = l.sum / len(l)`). -/
noncomputable def complexCircularMean (input_angles : List ℝ) (degrees : Bool) (full_arc : Option ℝ) : ℂ :=
  (input_angles.map fun θ => Complex.exp ((toRadFn degrees full_arc θ : ℝ) * Complex.I)).sum
    / (input_angles.length : ℂ)

/-- `circular_mean` (`clockwork.py` lines 82-88): the unit-converted
argument of the complex circular mean. -/
noncomputable def circular_mean (input_angles : List ℝ) (degrees : Bool) (full_arc : Option ℝ) : ℝ :=
  toDegFn degrees full_arc (Complex.arg (complexCircularMean input_angles degrees full_arc))

/-- `circular_var` (`clockwork.py` lines 146-148): `1 - |complex mean|`,
with no unit conversion applied. -/
noncomputable def circular_var (input_angles : List ℝ) (degrees : Bool) (full_arc : Option ℝ) : ℝ :=
  1 - Complex.abs (complexCircularMean input_angles degrees full_arc)

/-- `circular_std` (`clockwork.py` lines 208-210):
`sqrt(-2·log|complex mean|)`.  numpy evaluates `np.log 0` to `-inf`
(emitting a runtime warning, not an exception) and `np.sqrt (+inf)` to
`+inf`, so the zero-magnitude branch is embedded as `⊤ : EReal`. -/
noncomputable def circular_std (input_angles : List ℝ) (degrees : Bool) (full_arc : Option ℝ) : EReal :=
  if Complex.abs (complexCircularMean input_angles degrees full_arc) = 0 then ⊤
  else ((Real.sqrt (-2 * Real.log (Complex.abs (complexCircularMean input_angles degrees full_arc))) : ℝ) : EReal)

theorem abs_list_sum_le (l : List ℂ) : Complex.abs l.sum ≤ (l.map Complex.abs).sum := by
  induction l with
  | nil => simp
  | cons a t ih =>
      simp only [List.sum_cons, List.map_cons]
      calc Complex.abs (a + t.sum)
          ≤ Complex.abs a + Complex.abs t.sum := Complex.abs.add_le a t.sum
        _ ≤ Complex.abs a + (t.map Complex.abs).sum := by linarith

theorem sum_map_one (l : List ℝ) : (l.map fun _ => (1:ℝ)).sum = l.length := by
  induction l with
  | nil => simp
  | cons a t ih =>
      simp [ih]
      ring

theorem abs_complexCircularMean_le_one (input_angles : List ℝ) (degrees : Bool)
    (full_arc : Option ℝ) (hne : input_angles ≠ []) :
    Complex.abs (complexCircularMean input_angles degrees full_arc) ≤ 1 := by
  unfold complexCircularMean
  rw [map_div₀, Complex.abs_natCast]
  have hlen : (0:ℝ) < input_angles.length := by
    exact_mod_cast List.length_pos.mpr hne
  rw [div_le_one hlen]
  calc Complex.abs (input_angles.map fun θ =>
          Complex.exp ((toRadFn degrees full_arc θ : ℝ) * Complex.I)).sum
      ≤ ((input_angles.map fun θ =>
          Complex.exp ((toRadFn degrees full_arc θ : ℝ) * Complex.I)).map Complex.abs).sum :=
        abs_list_sum_le _
    _ = (input_angles.map fun _ => (1:ℝ)).sum := by
        rw [List.map_map]
        refine congrArg List.sum (List.map_congr_left ?_)
        intro x _
        exact Complex.abs_exp_ofReal_mul_I _
    _ = input_angles.length := sum_map_one _

/-- C5 counterexample: under exact real arithmetic the circular mean of
the one-element degree collection `[180]` is `+180`, which is not in the
claimed half-open interval `[-180, 180)`. -/
theorem circular_mean_at_180 :
    circular_mean [180] true none = 180 ∧ (180:ℝ) ∉ Set.Ico (-180:ℝ) 180 := by
  have hrad : toRadFn true none 180 = π := by
    show deg2rad 180 = π
    unfold deg2rad
    field_simp
  have h1 : complexCircularMean [180] true none = -1 := by
    unfold complexCircularMean
    rw [List.map_cons, List.map_nil, List.sum_cons, List.sum_nil, hrad, Complex.exp_pi_mul_I]
    norm_num
  constructor
  · unfold circular_mean
    rw [h1, Complex.arg_neg_one]
    show rad2deg π = 180
    unfold rad2deg
    have hπ : (π:ℝ) ≠ 0 := Real.pi_ne_zero
    field_simp
  · simp

/-- C5 (amended): for every non-empty collection of finite angles and any
degrees/full_arc options (positive effective full arc), `circular_mean`
returns the argument of the complex resultant mean converted back to the
caller's unit, and the output lies in the half-open interval
`(-half_arc, half_arc]`; when the resultant vector has zero magnitude
(opposing angles cancel exactly) the result is `0` by the
argument-of-zero convention — not NaN and not an error. -/
theorem circular_mean_range_and_zero (input_angles : List ℝ) (degrees : Bool)
    (full_arc : Option ℝ) (_hne : input_angles ≠ [])
    (h : 0 < effFullArc degrees full_arc) :
    circular_mean input_angles degrees full_arc
        ∈ Set.Ioc (-(effFullArc degrees full_arc / 2)) (effFullArc degrees full_arc / 2)
      ∧ (complexCircularMean input_angles degrees full_arc = 0
          → circular_mean input_angles degrees full_arc = 0) := by
  set F := effFullArc degrees full_arc with hF
  have hπ : (0:ℝ) < π := Real.pi_pos
  have hπne : (π:ℝ) ≠ 0 := ne_of_gt hπ
  have hc : (0:ℝ) < F / (2 * π) := by positivity
  have hmem := Complex.arg_mem_Ioc (complexCircularMean input_angles degrees full_arc)
  have hmem1 : -π < Complex.arg (complexCircularMean input_angles degrees full_arc) := hmem.1
  have hmem2 : Complex.arg (complexCircularMean input_angles degrees full_arc) ≤ π := hmem.2
  have hval : circular_mean input_angles degrees full_arc
      = Complex.arg (complexCircularMean input_angles degrees full_arc) * (F / (2 * π)) := by
    unfold circular_mean
    rw [toDegFn_eq]
  constructor
  · rw [hval]
    constructor
    · have hstep : -π * (F / (2 * π))
          < Complex.arg (complexCircularMean input_angles degrees full_arc) * (F / (2 * π)) :=
        mul_lt_mul_of_pos_right hmem1 hc
      have heq : -π * (F / (2 * π)) = -(F / 2) := by
        field_simp
        ring
      linarith
    · have hstep : Complex.arg (complexCircularMean input_angles degrees full_arc) * (F / (2 * π))
          ≤ π * (F / (2 * π)) :=
        mul_le_mul_of_nonneg_right hmem2 (le_of_lt hc)
      have heq : π * (F / (2 * π)) = F / 2 := by
        field_simp
        ring
      linarith
  · intro h0
    rw [hval, h0, Complex.arg_zero, zero_mul]

theorem circular_mean_range_and_zero_witness :
    ([350, 355, 0, 5] : List ℝ) ≠ []
      ∧ (0:ℝ) < effFullArc true none
      ∧ (circular_mean [350, 355, 0, 5] true none
            ∈ Set.Ioc (-(effFullArc true none / 2)) (effFullArc true none / 2)
          ∧ (complexCircularMean [350, 355, 0, 5] true none = 0
              → circular_mean [350, 355, 0, 5] true none = 0)) :=
  ⟨by simp, by norm_num [effFullArc],
    circular_mean_range_and_zero [350, 355, 0, 5] true none (by simp) (by norm_num [effFullArc])⟩

/-- C6: for every non-empty collection of finite angles and any
degrees/full_arc options, `circular_var` returns `1 − |complex mean|`
with no unit conversion applied to the output, and the result lies in
`[0, 1]`: `0` when all angles are identical, `1` when the resultant
vector cancels to zero, regardless of the unit options. -/
theorem circular_var_bounds (input_angles : List ℝ) (degrees : Bool) (full_arc : Option ℝ)
    (hne : input_angles ≠ []) :
    (0 ≤ circular_var input_angles degrees full_arc
        ∧ circular_var input_angles degrees full_arc ≤ 1)
      ∧ (∀ c : ℝ, (∀ x ∈ input_angles, x = c)
          → circular_var input_angles degrees full_arc = 0)
      ∧ (complexCircularMean input_angles degrees full_arc = 0
          → circular_var input_angles degrees full_arc = 1) := by
  refine ⟨⟨?_, ?_⟩, ?_, ?_⟩
  · have := abs_complexCircularMean_le_one input_angles degrees full_arc hne
    unfold circular_var
    linarith
  · have := AbsoluteValue.nonneg Complex.abs (complexCircularMean input_angles degrees full_arc)
    unfold circular_var
    linarith
  · intro c hc
    have hmean : complexCircularMean input_angles degrees full_arc
        = Complex.exp ((toRadFn degrees full_arc c : ℝ) * Complex.I) := by
      unfold complexCircularMean
      have hmap : input_angles.map (fun θ => Complex.exp ((toRadFn degrees full_arc θ : ℝ) * Complex.I))
          = List.replicate input_angles.length
              (Complex.exp ((toRadFn degrees full_arc c : ℝ) * Complex.I)) := by
        rw [List.eq_replicate_iff]
        refine ⟨by simp, ?_⟩
        intro b hb
        rcases List.mem_map.mp hb with ⟨x, hx, hfx⟩
        rw [← hfx, hc x hx]
      rw [hmap, List.sum_replicate, nsmul_eq_mul]
      have hlen : ((input_angles.length : ℂ)) ≠ 0 := by
        exact_mod_cast Nat.cast_ne_zero.mpr (List.length_pos.mpr hne).ne'
      field_simp
    unfold circular_var
    rw [hmean, Complex.abs_exp_ofReal_mul_I]
    ring
  · intro h0
    unfold circular_var
    rw [h0]
    simp

theorem circular_var_bounds_witness :
    ([1, 2] : List ℝ) ≠ []
      ∧ ((0 ≤ circular_var [1, 2] false none ∧ circular_var [1, 2] false none ≤ 1)
        ∧ (∀ c : ℝ, (∀ x ∈ ([1, 2] : List ℝ), x = c) → circular_var [1, 2] false none = 0)
        ∧ (complexCircularMean [1, 2] false none = 0 → circular_var [1, 2] false none = 1)) :=
  ⟨by simp, circular_var_bounds [1, 2] false none (by simp)⟩

/-- C7: `circular_std` returns `sqrt(−2·ln|complex mean|)` as a total
function (no exception can propagate); when the resultant vector has zero
magnitude, `log 0` is `−∞` and the result is `+∞` (`⊤ : EReal`). -/
theorem circular_std_top_of_zero_resultant (input_angles : List ℝ) (degrees : Bool)
    (full_arc : Option ℝ)
    (h : complexCircularMean input_angles degrees full_arc = 0) :
    circular_std input_angles degrees full_arc = ⊤ := by
  unfold circular_std
  rw [h]
  simp

theorem circular_std_top_of_zero_resultant_witness :
    complexCircularMean [-(π / 2), π / 2] false none = 0
      ∧ circular_std [-(π / 2), π / 2] false none = ⊤ := by
  have h0 : complexCircularMean [-(π / 2), π / 2] false none = 0 := by
    unfold complexCircularMean
    have hr1 : toRadFn false none (-(π / 2)) = -(π / 2) := rfl
    have hr2 : toRadFn false none (π / 2) = π / 2 := rfl
    rw [List.map_cons, List.map_cons, List.map_nil, List.sum_cons, List.sum_cons, List.sum_nil,
      hr1, hr2]
    have h1 : Complex.exp (((-(π / 2) : ℝ) : ℂ) * Complex.I)
        + (Complex.exp ((((π / 2) : ℝ) : ℂ) * Complex.I) + 0) = 0 := by
      simp only [Complex.exp_mul_I, ← Complex.ofReal_cos, ← Complex.ofReal_sin,
        Real.cos_neg, Real.sin_neg, Real.cos_pi_div_two, Real.sin_pi_div_two]
      push_cast
      ring
    rw [h1, zero_div]
  exact ⟨h0, circular_std_top_of_zero_resultant [-(π / 2), π / 2] false none h0⟩

/-- numpy's floor-style `%` on reals: `x % y = x - y·⌊x/y⌋` (the result
has the sign of `y`; the `y = 0` case is junk, as numpy's NaN). -/
noncomputable def rfmod (x y : ℝ) : ℝ := x - y * ⌊x / y⌋

theorem rfmod_eq_fract (x y : ℝ) (hy : y ≠ 0) : rfmod x y = y * Int.fract (x / y) := by
  unfold rfmod
  simp only [Int.fract]
  rw [mul_sub, mul_comm y (x / y), div_mul_cancel₀ x hy]

theorem rfmod_nonneg (x y : ℝ) (hy : 0 < y) : 0 ≤ rfmod x y := by
  rw [rfmod_eq_fract x y (ne_of_gt hy)]
  exact mul_nonneg (le_of_lt hy) (Int.fract_nonneg _)

theorem rfmod_lt (x y : ℝ) (hy : 0 < y) : rfmod x y < y := by
  rw [rfmod_eq_fract x y (ne_of_gt hy)]
  calc y * Int.fract (x / y) < y * 1 := mul_lt_mul_of_pos_left (Int.fract_lt_one _) hy
  _ = y := mul_one y

theorem rfmod_eq_self (x y : ℝ) (h0 : 0 ≤ x) (h1 : x < y) : rfmod x y = x := by
  unfold rfmod
  have hy : 0 < y := lt_of_le_of_lt h0 h1
  have hfl : ⌊x / y⌋ = 0 := by
    rw [Int.floor_eq_zero_iff]
    refine Set.mem_Ico.mpr ⟨by positivity, ?_⟩
    rw [div_lt_one hy]
    exact h1
  rw [hfl]
  simp

/-- `circular_sub` (`clockwork.py` lines 292-344):
`arc_delta = ((full_arc/2) - |  |minuend - subtrahend| - full_arc/2  |) % full_arc`,
returned as-is when `closer`, else as `full_arc - arc_delta`. -/
noncomputable def circular_sub (angles_minuend angles_subtrahend : ℝ) (closer : Bool)
    (degrees : Bool) (full_arc : Option ℝ) : ℝ :=
  if closer then
    rfmod (effFullArc degrees full_arc / 2
        - |(|angles_minuend - angles_subtrahend|) - effFullArc degrees full_arc / 2|)
      (effFullArc degrees full_arc)
  else
    effFullArc degrees full_arc
      - rfmod (effFullArc degrees full_arc / 2
          - |(|angles_minuend - angles_subtrahend|) - effFullArc degrees full_arc / 2|)
        (effFullArc degrees full_arc)

/-- C4 counterexample: for the degree pair (370, 0) — raw difference just
over one full turn — `circular_sub` with `closer=True` returns 350,
which exceeds `half_arc = 180`, so the result is not the closer
(non-reflex) distance for inputs lying more than a full turn apart. -/
theorem circular_sub_exceeds_half_arc :
    circular_sub 370 0 true true none = 350
      ∧ ¬ (circular_sub 370 0 true true none ≤ 360 / 2) := by
  have h : circular_sub 370 0 true true none = 350 := by
    show rfmod (effFullArc true none / 2 - |(|(370:ℝ) - 0|) - effFullArc true none / 2|)
        (effFullArc true none) = 350
    have hfa : effFullArc true none = 360 := rfl
    rw [hfa]
    have harg : (360:ℝ) / 2 - |(|(370:ℝ) - 0|) - 360 / 2| = -10 := by
      rw [show |(370:ℝ) - 0| = 370 by norm_num]
      rw [show |(370:ℝ) - 360 / 2| = 190 by norm_num]
      norm_num
    rw [harg]
    unfold rfmod
    have hfl : ⌊(-10:ℝ) / 360⌋ = -1 := by
      rw [Int.floor_eq_iff]
      norm_num
    rw [hfl]
    norm_num
  exact ⟨h, by rw [h]; norm_num⟩

theorem tent_eq_min (δ F : ℝ) :
    F / 2 - |δ - F / 2| = min δ (F - δ) := by
  rcases le_total δ (F / 2) with hc | hc
  · rw [abs_of_nonpos (by linarith), min_eq_left (by linarith)]
    ring
  · rw [abs_of_nonneg (by linarith), min_eq_right (by linarith)]
    ring

theorem min_dist_le (δ F : ℝ) (hF : 0 < F) (h0 : 0 ≤ δ) (h1 : δ ≤ F) (j : ℤ) :
    min δ (F - δ) ≤ |δ - j * F| := by
  have hm1 : min δ (F - δ) ≤ δ := min_le_left _ _
  have hm2 : min δ (F - δ) ≤ F - δ := min_le_right _ _
  rcases le_or_lt j (-1) with hj | hj
  · have hjr : (j:ℝ) ≤ -1 := by exact_mod_cast hj
    rw [abs_of_nonneg (by nlinarith)]
    nlinarith
  · have hj0 : 0 ≤ j := by omega
    rcases eq_or_lt_of_le hj0 with hj0e | hj0l
    · rw [← hj0e]
      push_cast
      rw [zero_mul, sub_zero, abs_of_nonneg h0]
      exact hm1
    · have hj1 : 1 ≤ j := hj0l
      rcases eq_or_lt_of_le hj1 with hj1e | hj1l
      · rw [← hj1e]
        push_cast
        rw [one_mul, abs_of_nonpos (by linarith)]
        linarith
      · have hj2 : 2 ≤ j := hj1l
        have hjr : (2:ℝ) ≤ (j:ℝ) := by exact_mod_cast hj2
        rw [abs_of_nonpos (by nlinarith)]
        nlinarith

/-- C4 (amended): `circular_sub` with `closer=True` returns
`((full_arc/2) − ||minuend − subtrahend| − full_arc/2||) mod full_arc`
for all inputs; when additionally the raw difference satisfies
`|minuend − subtrahend| ≤ full_arc`, this value is the closer
(non-reflex) circular distance between the two angles: non-negative, at
most `half_arc = full_arc/2`, and minimal over all integer-turn
representatives of the difference.  (For raw differences of more than
one full arc the result can exceed `half_arc`.) -/
theorem circular_sub_closer_distance (a b : ℝ) (degrees : Bool) (full_arc : Option ℝ)
    (h : 0 < effFullArc degrees full_arc)
    (hd : |a - b| ≤ effFullArc degrees full_arc) :
    circular_sub a b true degrees full_arc
        = rfmod (effFullArc degrees full_arc / 2
            - |(|a - b|) - effFullArc degrees full_arc / 2|) (effFullArc degrees full_arc)
      ∧ 0 ≤ circular_sub a b true degrees full_arc
      ∧ circular_sub a b true degrees full_arc ≤ effFullArc degrees full_arc / 2
      ∧ ∃ k : ℤ,
          circular_sub a b true degrees full_arc = |a - b - k * effFullArc degrees full_arc|
          ∧ ∀ j : ℤ,
              circular_sub a b true degrees full_arc ≤ |a - b - j * effFullArc degrees full_arc| := by
  set F := effFullArc degrees full_arc with hF
  set δ := |a - b| with hδ
  have hδ0 : 0 ≤ δ := abs_nonneg _
  have habs_le : |δ - F / 2| ≤ F / 2 := by
    rw [abs_le]
    constructor <;> [linarith; linarith]
  have htent0 : 0 ≤ F / 2 - |δ - F / 2| := by linarith
  have htentlt : F / 2 - |δ - F / 2| < F := by
    have := abs_nonneg (δ - F / 2)
    linarith
  have hval : circular_sub a b true degrees full_arc = F / 2 - |δ - F / 2| := by
    show rfmod (F / 2 - |δ - F / 2|) F = F / 2 - |δ - F / 2|
    exact rfmod_eq_self _ _ htent0 htentlt
  have hmin : circular_sub a b true degrees full_arc = min δ (F - δ) := by
    rw [hval, tent_eq_min δ F]
  have hub : ∀ j : ℤ, circular_sub a b true degrees full_arc ≤ |a - b - j * F| := by
    intro j
    rw [hmin]
    rcases le_or_lt 0 (a - b) with hs | hs
    · have he : a - b = δ := by rw [hδ, abs_of_nonneg hs]
      rw [he]
      exact min_dist_le δ F h hδ0 hd j
    · have he : a - b = -δ := by
        rw [hδ, abs_of_nonpos (le_of_lt hs)]
        ring
      have heq : |a - b - j * F| = |δ - ((-j : ℤ) : ℝ) * F| := by
        rw [he, show -δ - (j:ℝ) * F = -(δ - ((-j : ℤ) : ℝ) * F) by push_cast; ring, abs_neg]
      rw [heq]
      exact min_dist_le δ F h hδ0 hd (-j)
  have hex : ∃ k : ℤ, circular_sub a b true degrees full_arc = |a - b - k * F| := by
    rcases le_or_lt 0 (a - b) with hs | hs
    · have he : a - b = δ := by rw [hδ, abs_of_nonneg hs]
      rcases le_total δ (F / 2) with hc | hc
      · refine ⟨0, ?_⟩
        rw [hmin, min_eq_left (by linarith), he]
        push_cast
        rw [zero_mul, sub_zero, abs_of_nonneg hδ0]
      · refine ⟨1, ?_⟩
        rw [hmin, min_eq_right (by linarith), he]
        push_cast
        rw [one_mul, abs_of_nonpos (by linarith)]
        ring
    · have he : a - b = -δ := by
        rw [hδ, abs_of_nonpos (le_of_lt hs)]
        ring
      rcases le_total δ (F / 2) with hc | hc
      · refine ⟨0, ?_⟩
        rw [hmin, min_eq_left (by linarith), he]
        push_cast
        rw [zero_mul, sub_zero, abs_neg, abs_of_nonneg hδ0]
      · refine ⟨-1, ?_⟩
        rw [hmin, min_eq_right (by linarith), he]
        push_cast
        rw [show -δ - (-1:ℝ) * F = -(δ - F) by ring, abs_neg, abs_of_nonpos (by linarith)]
        ring
  refine ⟨?_, ?_, ?_, ?_⟩
  · rw [hval]
    exact (rfmod_eq_self _ _ htent0 htentlt).symm
  · rw [hmin]
    exact le_min hδ0 (by linarith)
  · rw [hmin]
    rcases le_total δ (F / 2) with hc | hc
    · calc min δ (F - δ) ≤ δ := min_le_left _ _
      _ ≤ F / 2 := hc
    · calc min δ (F - δ) ≤ F - δ := min_le_right _ _
      _ ≤ F / 2 := by linarith
  · rcases hex with ⟨k, hk⟩
    exact ⟨k, hk, hub⟩

/-- C9: swapping minuend and subtrahend leaves `circular_sub` unchanged
for both `closer` settings, the `closer=True` result is non-negative,
and `closer=False` returns `full_arc −` the `closer=True` value. -/
theorem circular_sub_symm_and_complement (a b : ℝ) (degrees : Bool) (full_arc : Option ℝ)
    (h : 0 < effFullArc degrees full_arc) :
    circular_sub a b true degrees full_arc = circular_sub b a true degrees full_arc
      ∧ circular_sub a b false degrees full_arc = circular_sub b a false degrees full_arc
      ∧ circular_sub a b false degrees full_arc
          = effFullArc degrees full_arc - circular_sub a b true degrees full_arc
      ∧ 0 ≤ circular_sub a b true degrees full_arc := by
  have habs : |a - b| = |b - a| := abs_sub_comm a b
  refine ⟨?_, ?_, rfl, ?_⟩
  · unfold circular_sub
    rw [habs]
  · unfold circular_sub
    rw [habs]
  · exact rfmod_nonneg _ _ h

theorem circular_sub_symm_and_complement_witness :
    (0:ℝ) < effFullArc true none
      ∧ (circular_sub 10 30 true true none = circular_sub 30 10 true true none
        ∧ circular_sub 10 30 false true none = circular_sub 30 10 false true none
        ∧ circular_sub 10 30 false true none
            = effFullArc true none - circular_sub 10 30 true true none
        ∧ 0 ≤ circular_sub 10 30 true true none) :=
  ⟨by norm_num [effFullArc],
    circular_sub_symm_and_complement 10 30 true none (by norm_num [effFullArc])⟩

theorem circular_sub_closer_distance_witness :
    (0:ℝ) < effFullArc true none
      ∧ |(30:ℝ) - 10| ≤ effFullArc true none
      ∧ (circular_sub 30 10 true true none
            = rfmod (effFullArc true none / 2
                - |(|(30:ℝ) - 10|) - effFullArc true none / 2|) (effFullArc true none)
          ∧ 0 ≤ circular_sub 30 10 true true none
          ∧ circular_sub 30 10 true true none ≤ effFullArc true none / 2
          ∧ ∃ k : ℤ,
              circular_sub 30 10 true true none = |(30:ℝ) - 10 - k * effFullArc true none|
              ∧ ∀ j : ℤ,
                  circular_sub 30 10 true true none
                    ≤ |(30:ℝ) - 10 - j * effFullArc true none|) :=
  ⟨by norm_num [effFullArc], by norm_num [effFullArc],
    circular_sub_closer_distance 30 10 true none (by norm_num [effFullArc])
      (by norm_num [effFullArc])⟩

/-- The local reduction lambda of `circular_sieve` (`clockwork.py`
line 271): convert to radians, `np.angle(np.exp(i·θ))`, then the sieve's
own local back-conversion `sieveToDegFn`. -/
noncomputable def sievePrincipal (degrees : Bool) (full_arc : Option ℝ) (θ : ℝ) : ℝ :=
  sieveToDegFn degrees full_arc
    (Complex.arg (Complex.exp ((toRadFn degrees full_arc θ : ℝ) * Complex.I)))

/-- One element of the sieve mask (`clockwork.py` lines 276-288): with
reduced values `A`, `S`, `E`, the no-branch-cut case `S ≤ E` tests
`S ≤ A ∧ A ≤ E` (line 286); the branch-cut case `S > E` tests
`S ≤ A ∨ A ≤ E` (line 288). -/
noncomputable def sieveMaskElem (A S E : ℝ) : Bool :=
  if S ≤ E then
    if S ≤ A ∧ A ≤ E then true else false
  else
    if S ≤ A ∨ A ≤ E then true else false

/-- `circular_sieve` (`clockwork.py` lines 213-289) for scalar inputs. -/
noncomputable def circular_sieve (input_angle start_angle end_angle : ℝ)
    (degrees : Bool) (full_arc : Option ℝ) : Bool :=
  sieveMaskElem (sievePrincipal degrees full_arc input_angle)
    (sievePrincipal degrees full_arc start_angle)
    (sievePrincipal degrees full_arc end_angle)

/-- `circular_sieve` for a scalar input angle against 1-D arrays of
start/end angles: the scalar input is reduced once, then broadcast
(`np.ones_like(start_angle) * input_angles`, line 284) and tested
element-wise against the reduced start/end pairs. -/
noncomputable def circular_sieve_bcast (input_angle : ℝ) (start_angles end_angles : List ℝ)
    (degrees : Bool) (full_arc : Option ℝ) : List Bool :=
  List.zipWith (fun a p => sieveMaskElem a p.1 p.2)
    (List.replicate (start_angles.map (sievePrincipal degrees full_arc)).length
      (sievePrincipal degrees full_arc input_angle))
    ((start_angles.map (sievePrincipal degrees full_arc)).zip
      (end_angles.map (sievePrincipal degrees full_arc)))

/-- The shape-mismatch message of `circular_sieve` (`clockwork.py`
lines 261-262), rendering both 1-D shapes. -/
def sieveShapeMessage (shape_start shape_end : ℕ) : String :=
  "start_angle shape (" ++ toString shape_start ++ ",) and end_angle shape ("
    ++ toString shape_end ++ ",) must be the same"

/-- `circular_sieve` with its input validation (`clockwork.py`
lines 260-263): the `ValueError` raise is embedded as `Except.error`. -/
noncomputable def circular_sieve_checked (input_angle : ℝ) (start_angles end_angles : List ℝ)
    (degrees : Bool) (full_arc : Option ℝ) : Except String (List Bool) :=
  if start_angles.length ≠ end_angles.length then
    Except.error (sieveShapeMessage start_angles.length end_angles.length)
  else
    Except.ok (circular_sieve_bcast input_angle start_angles end_angles degrees full_arc)

/-- The sieve as the spec documents it: identical to `circular_sieve`
but reducing with the documented back-conversion (`principal_angle`,
i.e. multiplication by `full_arc/(2π)`) instead of the sieve's local
`to_deg`. -/
noncomputable def circular_sieve_docConv (input_angle start_angle end_angle : ℝ)
    (degrees : Bool) (full_arc : Option ℝ) : Bool :=
  sieveMaskElem (principal_angle input_angle degrees full_arc)
    (principal_angle start_angle degrees full_arc)
    (principal_angle end_angle degrees full_arc)

theorem sievePrincipal_none (degrees : Bool) (θ : ℝ) :
    sievePrincipal degrees none θ = principal_angle θ degrees none := rfl

theorem sievePrincipal_some (degrees : Bool) (v θ : ℝ) :
    sievePrincipal degrees (some v) θ = π ^ 2 * principal_angle θ degrees (some v) := by
  simp only [sievePrincipal, principal_angle, sieveToDegFn, toDegFn]
  have hπ : (π:ℝ) ≠ 0 := Real.pi_ne_zero
  field_simp
  ring

theorem sieveMaskElem_pos_scale (c A S E : ℝ) (hc : 0 < c) :
    sieveMaskElem (c * A) (c * S) (c * E) = sieveMaskElem A S E := by
  unfold sieveMaskElem
  simp only [mul_le_mul_left hc]

theorem circular_sieve_eq_docConv (input_angle start_angle end_angle : ℝ)
    (degrees : Bool) (full_arc : Option ℝ) :
    circular_sieve input_angle start_angle end_angle degrees full_arc
      = circular_sieve_docConv input_angle start_angle end_angle degrees full_arc := by
  match full_arc with
  | none => rfl
  | some v =>
      unfold circular_sieve circular_sieve_docConv
      rw [sievePrincipal_some, sievePrincipal_some, sievePrincipal_some]
      exact sieveMaskElem_pos_scale (π ^ 2) _ _ _ (pow_pos Real.pi_pos 2)

theorem sieveMaskElem_eq_true_iff (A S E : ℝ) :
    sieveMaskElem A S E = true
      ↔ ((S ≤ E ∧ S ≤ A ∧ A ≤ E) ∨ (E < S ∧ (S ≤ A ∨ A ≤ E))) := by
  constructor
  · intro ht
    unfold sieveMaskElem at ht
    by_cases h1 : S ≤ E
    · rw [if_pos h1] at ht
      by_cases h2 : S ≤ A ∧ A ≤ E
      · exact Or.inl ⟨h1, h2⟩
      · rw [if_neg h2] at ht
        exact absurd ht (by simp)
    · rw [if_neg h1] at ht
      by_cases h2 : S ≤ A ∨ A ≤ E
      · exact Or.inr ⟨not_le.mp h1, h2⟩
      · rw [if_neg h2] at ht
        exact absurd ht (by simp)
  · intro hp
    unfold sieveMaskElem
    rcases hp with ⟨h1, h2⟩ | ⟨h1, h2⟩
    · rw [if_pos h1, if_pos h2]
    · rw [if_neg (not_le.mpr h1), if_pos h2]

theorem zipWith_replicate_left {α β γ : Type} (f : α → β → γ) (a : α) (l : List β) (n : ℕ)
    (hn : l.length ≤ n) : List.zipWith f (List.replicate n a) l = l.map (f a) := by
  induction l generalizing n with
  | nil => simp
  | cons x t ih =>
      cases n with
      | zero => simp at hn
      | succ m =>
          simp only [List.replicate_succ, List.zipWith_cons_cons, List.map_cons]
          rw [ih m (by simpa using hn)]

/-- C3: in `circular_sieve`, after the inputs are reduced to principal
form, each element's membership is decided per corresponding
(start, end) pair — `start ≤ angle ∧ angle ≤ end` (inclusive) when
`start ≤ end`, and `angle ≥ start ∨ angle ≤ end` when the sector crosses
the branch cut (`start > end`); a scalar angle given with array-shaped
start/end is broadcast to their shape and tested element-wise. -/
theorem circular_sieve_membership (input_angle start_angle end_angle : ℝ) (degrees : Bool)
    (full_arc : Option ℝ) (start_angles end_angles : List ℝ)
    (_hlen : start_angles.length = end_angles.length) :
    (circular_sieve input_angle start_angle end_angle degrees full_arc = true
      ↔ ((principal_angle start_angle degrees full_arc ≤ principal_angle end_angle degrees full_arc
            ∧ principal_angle start_angle degrees full_arc
                ≤ principal_angle input_angle degrees full_arc
            ∧ principal_angle input_angle degrees full_arc
                ≤ principal_angle end_angle degrees full_arc)
        ∨ (principal_angle end_angle degrees full_arc
              < principal_angle start_angle degrees full_arc
            ∧ (principal_angle start_angle degrees full_arc
                  ≤ principal_angle input_angle degrees full_arc
              ∨ principal_angle input_angle degrees full_arc
                  ≤ principal_angle end_angle degrees full_arc))))
    ∧ circular_sieve_bcast input_angle start_angles end_angles degrees full_arc
        = (start_angles.zip end_angles).map
            (fun p => circular_sieve input_angle p.1 p.2 degrees full_arc) := by
  constructor
  · rw [circular_sieve_eq_docConv]
    exact sieveMaskElem_eq_true_iff _ _ _
  · unfold circular_sieve_bcast
    rw [zipWith_replicate_left]
    · rw [List.zip_map, List.map_map]
      refine List.map_congr_left ?_
      intro p _
      rfl
    · rw [List.length_zip]
      exact min_le_left _ _

theorem circular_sieve_membership_witness :
    ([3, 5] : List ℝ).length = ([4, 6] : List ℝ).length
      ∧ ((circular_sieve 14.5 3 4.2 false (some 12) = true
          ↔ ((principal_angle 3 false (some 12) ≤ principal_angle 4.2 false (some 12)
                ∧ principal_angle 3 false (some 12) ≤ principal_angle 14.5 false (some 12)
                ∧ principal_angle 14.5 false (some 12) ≤ principal_angle 4.2 false (some 12))
            ∨ (principal_angle 4.2 false (some 12) < principal_angle 3 false (some 12)
                ∧ (principal_angle 3 false (some 12) ≤ principal_angle 14.5 false (some 12)
                  ∨ principal_angle 14.5 false (some 12) ≤ principal_angle 4.2 false (some 12)))))
        ∧ circular_sieve_bcast 14.5 [3, 5] [4, 6] false (some 12)
            = (([3, 5] : List ℝ).zip ([4, 6] : List ℝ)).map
                (fun p => circular_sieve 14.5 p.1 p.2 false (some 12))) :=
  ⟨rfl, circular_sieve_membership 14.5 3 4.2 false (some 12) [3, 5] [4, 6] rfl⟩

/-- C8: `circular_sieve` fails with the descriptive shape-mismatch error
naming both shapes exactly when the shapes of `start_angle` and
`end_angle` differ, and returns the boolean mask otherwise.  (All other
operations of the library are embedded as total functions: no other
definition in this file has an error outcome.) -/
theorem circular_sieve_checked_error_iff (input_angle : ℝ) (start_angles end_angles : List ℝ)
    (degrees : Bool) (full_arc : Option ℝ) :
    (circular_sieve_checked input_angle start_angles end_angles degrees full_arc
        = Except.error (sieveShapeMessage start_angles.length end_angles.length)
      ↔ start_angles.length ≠ end_angles.length)
    ∧ (circular_sieve_checked input_angle start_angles end_angles degrees full_arc
          = Except.ok (circular_sieve_bcast input_angle start_angles end_angles degrees full_arc)
        ↔ start_angles.length = end_angles.length) := by
  unfold circular_sieve_checked
  by_cases h : start_angles.length = end_angles.length
  · rw [if_neg (not_not_intro h)]
    constructor
    · simp [h]
    · simp [h]
  · rw [if_pos h]
    constructor
    · simp [h]
    · simp [h]

/-- C10: with a custom `full_arc`, the sieve's local back-conversion
multiplies by `full_arc·π/2` instead of the documented `full_arc/(2π)`,
but the same positive factor (`π²` relative to the documented reduction)
rescales the reduced input, start and end angles uniformly, so every
comparison — and therefore the returned boolean mask — is identical (in
exact real arithmetic) to the result obtained with the documented
principal-form conversion. -/
theorem circular_sieve_conversion_irrelevant (input_angle start_angle end_angle : ℝ)
    (degrees : Bool) (v : ℝ) :
    circular_sieve input_angle start_angle end_angle degrees (some v)
      = circular_sieve_docConv input_angle start_angle end_angle degrees (some v) :=
  circular_sieve_eq_docConv input_angle start_angle end_angle degrees (some v)

/-- Modelled from the spec (§4.6, §4.8): the `inclusive=False` variant
of the sieve mask is part of this repository
(`clockwork.utils.circular_sieve` accepts `inclusive`, as called by
`AngleCalc.isAngleBetween`) but its defining module is not under `src/`;
per the spec the open variant replaces the boundary comparisons of
`sieveMaskElem` by strict ones. -/
noncomputable def sieveMaskElemExcl (A S E : ℝ) : Bool :=
  if S ≤ E then
    if S < A ∧ A < E then true else false
  else
    if S < A ∨ A < E then true else false

/-- Modelled from the spec (§4.6, §4.8): `circular_sieve` with
`inclusive=False` — the reduction pipeline of the in-src sieve with the
open-boundary element test. -/
noncomputable def circular_sieve_excl (input_angle start_angle end_angle : ℝ)
    (degrees : Bool) (full_arc : Option ℝ) : Bool :=
  sieveMaskElemExcl (sievePrincipal degrees full_arc input_angle)
    (sievePrincipal degrees full_arc start_angle)
    (sievePrincipal degrees full_arc end_angle)

/-- `AngleCalc.isAngleBetween` (`angle_calc.py` lines 36-66): compute
the closer circular distance between the bounding angles, orient the
sector by testing `principal_angle(first + d) == principal_angle(second)`,
then apply the exclusive sieve with that orientation. -/
noncomputable def isAngleBetween (first_angle middle_angle second_angle : ℝ) : Bool :=
  if principal_angle (first_angle + circular_sub first_angle second_angle true true none)
        true none
      = principal_angle second_angle true none then
    circular_sieve_excl middle_angle first_angle second_angle true none
  else
    circular_sieve_excl middle_angle second_angle first_angle true none

/-- C2 failing input: `isAngleBetween 0 180 370` evaluates to `true`
although `370 ≡ 10 (mod 360)`, so the smaller (non-reflex) sector
bounded by `0°` and `370°` is the 10°-wide arc from `0°` to `10°`, which
does not contain `180°`.  The cause is `circular_sub 0 370` returning
the reflex value `350` instead of the closer distance `10`, which makes
the orientation test pick the wrong sector. -/
theorem isAngleBetween_wrong_sector : isAngleBetween 0 180 370 = true := by
  have hsub : circular_sub 0 370 true true none = 350 := by
    show rfmod (effFullArc true none / 2 - |(|(0:ℝ) - 370|) - effFullArc true none / 2|)
        (effFullArc true none) = 350
    have hfa : effFullArc true none = 360 := rfl
    rw [hfa]
    have harg : (360:ℝ) / 2 - |(|(0:ℝ) - 370|) - 360 / 2| = -10 := by
      rw [show |(0:ℝ) - 370| = 370 by norm_num,
        show |(370:ℝ) - 360 / 2| = 190 by norm_num]
      norm_num
    rw [harg]
    unfold rfmod
    have hfl : ⌊(-10:ℝ) / 360⌋ = -1 := by
      rw [Int.floor_eq_iff]
      norm_num
    rw [hfl]
    norm_num
  have hpa350 : principal_angle ((0:ℝ) + 350) true none = -10 := by
    rw [show ((0:ℝ) + 350) = 350 by norm_num]
    exact principal_angle_deg_eq 350 (-10) 1 (by norm_num) (by norm_num) (by norm_num)
  have hpa370 : principal_angle 370 true none = 10 :=
    principal_angle_deg_eq 370 10 1 (by norm_num) (by norm_num) (by norm_num)
  have hpa180 : principal_angle 180 true none = 180 :=
    principal_angle_deg_eq 180 180 0 (by norm_num) (by norm_num) (by norm_num)
  have hpa0 : principal_angle 0 true none = 0 :=
    principal_angle_deg_eq 0 0 0 (by norm_num) (by norm_num) (by norm_num)
  unfold isAngleBetween
  simp only [hsub, hpa350, hpa370]
  rw [if_neg (by norm_num : ¬ ((-10:ℝ) = 10))]
  unfold circular_sieve_excl
  simp only [sievePrincipal_none, hpa180, hpa370, hpa0]
  unfold sieveMaskElemExcl
  rw [if_neg (by norm_num : ¬ ((10:ℝ) ≤ 0))]
  rw [if_pos (Or.inl (by norm_num : (10:ℝ) < 180))]

end Clockwork
